import Mathlib

/-!
Verification of the regolt client library (cache engine, event dispatch bus,
and the socket read loop / frame processor) against its specification.

The Go source is shallowly embedded: Go maps (`map[ULID]*T` and
`map[ULID]map[ULID]*T`) become association lists with unique keys, unspecified
Go map-iteration choices (the `for k := range m` eviction loops) become
explicit choice-function parameters, and goroutine schedules relevant to the
claims become explicit action sequences.
-/

namespace Regolt

set_option linter.unusedVariables false

/-- Opaque sortable string identifier, from id.go: `type ULID string`. -/
abbrev ULID := String

/-! ### Association-list model of Go maps -/

/-- Lookup in an association-list model of a Go map. -/
def alookup {α : Type} : List (ULID × α) → ULID → Option α
  | [], _ => none
  | (k, v) :: rest, i => if k = i then some v else alookup rest i

/-- Insert-or-overwrite in an association-list model of a Go map
(`m[k] = v`). -/
def ainsert {α : Type} : List (ULID × α) → ULID → α → List (ULID × α)
  | [], k, v => [(k, v)]
  | (k', v') :: rest, k, v =>
    if k' = k then (k, v) :: rest else (k', v') :: ainsert rest k v

/-- Key removal in an association-list model of a Go map (`delete(m, k)`). -/
def aerase {α : Type} : List (ULID × α) → ULID → List (ULID × α)
  | [], _ => []
  | (k', v') :: rest, k =>
    if k' = k then aerase rest k else (k', v') :: aerase rest k

/-- The keys of an association list. -/
def keys {α : Type} (m : List (ULID × α)) : List ULID := m.map Prod.fst

/-- A well-formed Go map model has no duplicate keys. -/
def NodupKeys {α : Type} (m : List (ULID × α)) : Prop := (keys m).Nodup

/-! ### Cache1, the single-keyed cache (cache.go) -/

/-- State of `Cache1[T]` from cache.go. The Go `Checker` interface value is
modelled as an optional predicate receiving the current map contents and the
candidate entity (the fields of `Cache1CheckContext`); the entity key method
`GetKey` is passed separately as `key` to the operations. -/
structure Cache1 (T : Type) where
  checker : Option (List (ULID × T) → T → Bool)
  dontInsertIfOverflow : Bool
  maxSize : Int
  cache : List (ULID × T)

/-- Go condition `c.Checker != nil && !c.Checker.CanCache1(...)` is a
rejection; this returns `true` when the insertion is allowed. -/
def cache1Allows {T : Type} (c : Cache1 T) (e : T) : Bool :=
  match c.checker with
  | some can => can c.cache e
  | none => true

/-- `Cache1.resize` from cache.go. `evict` models the arbitrary key produced
by the Go `for k := range c.Cache` eviction loop. Returns the Go boolean
result together with the updated cache state. -/
def cache1Resize {T : Type} (key : T → ULID) (evict : List (ULID × T) → ULID)
    (c : Cache1 T) (e : T) : Bool × Cache1 T :=
  if c.maxSize = 0 then (false, c)
  else if 0 < c.maxSize then
    if !cache1Allows c e then (false, c)
    else if c.maxSize ≤ (c.cache.length : Int) then
      if c.dontInsertIfOverflow then (false, c)
      else (true, { c with cache := ainsert (aerase c.cache (evict c.cache)) (key e) e })
    else (true, { c with cache := ainsert c.cache (key e) e })
  else (true, c)

/-- `Cache1.Get` from cache.go. -/
def cache1Get {T : Type} (c : Cache1 T) (i : ULID) : Option T :=
  alookup c.cache i

/-- `Cache1.Del` from cache.go. -/
def cache1Del {T : Type} (c : Cache1 T) (i : ULID) : Cache1 T :=
  { c with cache := aerase c.cache i }

/-- `Cache1.PartiallyUpdate` from cache.go, instrumented with the number of
times the supplied updater ran (the Go updater mutates the entity in place;
here the stored value is replaced by the result of the updater). -/
def cache1PartiallyUpdateN {T : Type} (c : Cache1 T) (i : ULID)
    (updater : T → T) : Cache1 T × Nat :=
  match alookup c.cache i with
  | none => (c, 0)
  | some x => ({ c with cache := ainsert c.cache i (updater x) }, 1)

/-- `Cache1.PartiallyUpdate` from cache.go (state part). -/
def cache1PartiallyUpdate {T : Type} (c : Cache1 T) (i : ULID)
    (updater : T → T) : Cache1 T :=
  (cache1PartiallyUpdateN c i updater).1

/-- `Cache1.Set` from cache.go: bail out if `resize` returns false, else store
the entity under its key (a second time; `resize` already stored it). -/
def cache1Set {T : Type} (key : T → ULID) (evict : List (ULID × T) → ULID)
    (c : Cache1 T) (v : T) : Cache1 T :=
  match cache1Resize key evict c v with
  | (false, _) => c
  | (true, c2) => { c2 with cache := ainsert c2.cache (key v) v }

/-- `Cache1.Size` from cache.go (`len(c.Cache)`). -/
def cache1Size {T : Type} (c : Cache1 T) : Nat := c.cache.length

/-- Folding `Cache1.Set` over a list of entities. -/
def cache1SetMany {T : Type} (key : T → ULID) (evict : List (ULID × T) → ULID)
    (c : Cache1 T) : List T → Cache1 T
  | [] => c
  | v :: rest => cache1SetMany key evict (cache1Set key evict c v) rest

/-! ### Cache2, the parent-scoped cache (cache.go) -/

/-- State of `Cache2[T]` from cache.go: a two-level map (parent id, then
entity id) plus the maintained aggregate `total` count. The Go `Checker`
interface value is modelled as an optional predicate over the fields of
`Cache2CheckContext` (cache contents, parent, entity). -/
structure Cache2 (T : Type) where
  checker : Option (List (ULID × List (ULID × T)) → ULID → T → Bool)
  maxSize1 : Int
  maxSize2 : Int
  totalMaxSize : Int
  total : Int
  dontInsertIfOverflow : Bool
  cache : List (ULID × List (ULID × T))

/-- Go condition `c.Checker != nil && !c.Checker.CanCache2(...)` is a
rejection; this returns `true` when the insertion is allowed. -/
def cache2Allows {T : Type} (c : Cache2 T) (parent : ULID) (e : T) : Bool :=
  match c.checker with
  | some can => can c.cache parent e
  | none => true

/-- `Cache2.del` from cache.go: removing from a nil group map is a no-op,
and `total` is decremented only when the id was present. An empty group is
left in place (the Go code deletes only the entry, never the group). -/
def cache2DelEntry {T : Type} (c : Cache2 T) (parent i : ULID) : Cache2 T :=
  match alookup c.cache parent with
  | none => c
  | some p =>
    { c with
      cache := ainsert c.cache parent (aerase p i)
      total := if (alookup p i).isSome then c.total - 1 else c.total }

/-- `Cache2.ins` from cache.go: create a fresh one-entry group for a new
parent, otherwise insert into the existing group; `total` is incremented
only when the key is new within its parent. -/
def cache2Ins {T : Type} (key : T → ULID) (c : Cache2 T) (parent : ULID)
    (e : T) : Cache2 T :=
  match alookup c.cache parent with
  | none =>
    { c with cache := ainsert c.cache parent [(key e, e)], total := c.total + 1 }
  | some m =>
    { c with
      cache := ainsert c.cache parent (ainsert m (key e) e)
      total := if (alookup m (key e)).isSome then c.total else c.total + 1 }

/-- The total-cap eviction loop of `Cache2.resize`: the Go outer loop ranges
over every group and the inner loop deletes one arbitrary entry of that group
and then breaks, so one entry is removed from each nonempty group. `pickE`
models the arbitrary key produced by the inner `range`. -/
def cache2EvictOnePerGroup {T : Type} (pickE : List (ULID × T) → ULID)
    (c : Cache2 T) : Cache2 T :=
  (keys c.cache).foldl
    (fun acc k1 =>
      match alookup acc.cache k1 with
      | none => acc
      | some v1 => if v1.isEmpty then acc else cache2DelEntry acc k1 (pickE v1))
    c

/-- The per-parent-cap and max-groups-cap steps at the end of `Cache2.resize`
(after the `o, k := c.Cache[parent]` lookup). A Go `for ... range` eviction
loop over an empty map runs zero iterations and control falls through to
`return true`; that is the extra nonemptiness conjunct in each condition. -/
def cache2ResizeTail {T : Type}
    (pickG : List (ULID × List (ULID × T)) → ULID)
    (pickE : List (ULID × T) → ULID) (c : Cache2 T) (parent : ULID) :
    Bool × Cache2 T :=
  if (alookup c.cache parent).isSome = true ∧ c.maxSize2 ≠ 0 ∧
      c.maxSize2 ≤ (((alookup c.cache parent).getD []).length : Int) ∧
      ((alookup c.cache parent).getD []).isEmpty = false then
    (true, cache2DelEntry c parent (pickE ((alookup c.cache parent).getD [])))
  else if c.maxSize1 ≠ 0 ∧ c.maxSize1 ≤ (c.cache.length : Int) ∧
      (alookup c.cache parent).isSome = false ∧ c.cache.isEmpty = false then
    (true,
      { c with
        total := c.total -
          (((alookup c.cache (pickG c.cache)).getD []).length : Int)
        cache := aerase c.cache (pickG c.cache) })
  else (true, c)

/-- `Cache2.resize` from cache.go: the first switch case rejects when no
limit is configured; the second case (guarded by `TotalMaxSize < 0 ||
MaxSize1 > 0`) runs the checker, the total-cap eviction step, and then the
per-parent / max-groups steps; when neither case matches the Go switch falls
through to `return true` with no eviction at all. -/
def cache2Resize {T : Type} (key : T → ULID)
    (pickG : List (ULID × List (ULID × T)) → ULID)
    (pickE : List (ULID × T) → ULID) (c : Cache2 T) (parent : ULID) (e : T) :
    Bool × Cache2 T :=
  if c.maxSize1 = 0 ∧ c.maxSize2 = 0 ∧ c.totalMaxSize = 0 then (false, c)
  else if c.totalMaxSize < 0 ∨ 0 < c.maxSize1 then
    if !cache2Allows c parent e then (false, c)
    else if c.maxSize1 = 0 ∧ c.maxSize2 = 0 ∧ c.total = c.totalMaxSize then
      if c.dontInsertIfOverflow then (false, c)
      else cache2ResizeTail pickG pickE (cache2EvictOnePerGroup pickE c) parent
    else cache2ResizeTail pickG pickE c parent
  else (true, c)

/-- `Cache2.Get` from cache.go. -/
def cache2Get {T : Type} (c : Cache2 T) (parent i : ULID) : Option T :=
  match alookup c.cache parent with
  | some m => alookup m i
  | none => none

/-- `Cache2.Del` from cache.go (delegates to `del`). -/
def cache2Del {T : Type} (c : Cache2 T) (parent i : ULID) : Cache2 T :=
  cache2DelEntry c parent i

/-- `Cache2.DelGroup` from cache.go: drop a whole parent group and subtract
its size from `total`; a no-op when the parent is absent. -/
def cache2DelGroup {T : Type} (c : Cache2 T) (parent : ULID) : Cache2 T :=
  match alookup c.cache parent with
  | none => c
  | some m =>
    { c with total := c.total - (m.length : Int), cache := aerase c.cache parent }

/-- `Cache2.GroupsCount` from cache.go (`len(c.Cache)`). -/
def cache2GroupsCount {T : Type} (c : Cache2 T) : Nat := c.cache.length

/-- `Cache2.Size` from cache.go (the maintained `total`). -/
def cache2Size {T : Type} (c : Cache2 T) : Int := c.total

/-- `Cache2.PartiallyUpdate` from cache.go, instrumented with the number of
times the supplied updater ran. -/
def cache2PartiallyUpdateN {T : Type} (c : Cache2 T) (parent i : ULID)
    (updater : T → T) : Cache2 T × Nat :=
  match alookup c.cache parent with
  | none => (c, 0)
  | some x =>
    match alookup x i with
    | none => (c, 0)
    | some y => ({ c with cache := ainsert c.cache parent (ainsert x i (updater y)) }, 1)

/-- `Cache2.PartiallyUpdate` from cache.go (state part). -/
def cache2PartiallyUpdate {T : Type} (c : Cache2 T) (parent i : ULID)
    (updater : T → T) : Cache2 T :=
  (cache2PartiallyUpdateN c parent i updater).1

/-- `Cache2.Set` from cache.go: insert through `ins` only when `resize`
allows it. -/
def cache2Set {T : Type} (key : T → ULID)
    (pickG : List (ULID × List (ULID × T)) → ULID)
    (pickE : List (ULID × T) → ULID) (c : Cache2 T) (parent : ULID) (v : T) :
    Cache2 T :=
  match cache2Resize key pickG pickE c parent v with
  | (false, _) => c
  | (true, c2) => cache2Ins key c2 parent v

/-- The number of entries actually reachable across all parent groups. -/
def entryCount {T : Type} (m : List (ULID × List (ULID × T))) : Nat :=
  (m.map (fun p => p.2.length)).sum

/-- Well-formedness of a `Cache2` state: the maintained `total` equals the
number of reachable entries and both map levels have unique keys. -/
def Cache2WF {T : Type} (c : Cache2 T) : Prop :=
  c.total = (entryCount c.cache : Int) ∧ NodupKeys c.cache ∧
    ∀ p ∈ c.cache, NodupKeys p.2

/-- States of `Cache2` reachable from a freshly initialised cache (empty map,
`total = 0`, any configuration) by the public mutating operations, with
arbitrary eviction choices at every step. -/
inductive Cache2Reachable {T : Type} (key : T → ULID) : Cache2 T → Prop
  | init (checker : Option (List (ULID × List (ULID × T)) → ULID → T → Bool))
      (ms1 ms2 tms : Int) (dont : Bool) :
      Cache2Reachable key ⟨checker, ms1, ms2, tms, 0, dont, []⟩
  | set (pickG : List (ULID × List (ULID × T)) → ULID)
      (pickE : List (ULID × T) → ULID) (parent : ULID) (e : T) (c : Cache2 T) :
      Cache2Reachable key c →
      Cache2Reachable key (cache2Set key pickG pickE c parent e)
  | del (parent i : ULID) (c : Cache2 T) : Cache2Reachable key c →
      Cache2Reachable key (cache2Del c parent i)
  | delGroup (parent : ULID) (c : Cache2 T) : Cache2Reachable key c →
      Cache2Reachable key (cache2DelGroup c parent)
  | partiallyUpdate (parent i : ULID) (f : T → T) (c : Cache2 T) :
      Cache2Reachable key c →
      Cache2Reachable key (cache2PartiallyUpdate c parent i f)

/-! ### Event dispatch bus (events.go) -/

/-- `EventController.EmitAndCall` from events.go, run to completion over an
explicit state of type `σ`: with zero registered callbacks the follow-up `f`
runs directly; otherwise the spawned goroutine first runs `Emit` (every
registered callback, one after another) and only then the follow-up.
Threading the state makes the relative order of the callbacks and the
follow-up observable. -/
def emitAndCallRun {σ : Type} (callbacks : List (σ → σ)) (followUp : σ → σ)
    (s : σ) : σ :=
  if callbacks.isEmpty then followUp s
  else followUp (callbacks.foldl (fun st g => g st) s)

/-- `Subscription.Delete` from events.go: `delete(s.Controller.ls, s.ID)`,
modelled on the list of registered subscription ids. -/
def eraseReg : List Nat → Nat → List Nat
  | [], _ => []
  | j :: rest, i => if j = i then eraseReg rest i else j :: eraseReg rest i

/-- `EventController.Emit` from events.go iterates the Go callback map while
callbacks may delete subscriptions from that same map. `order` is the
arbitrary order in which the map range produces the entries that were
registered when the iteration started; per Go map-iteration semantics an
entry removed before being reached is not produced, so an id is invoked only
if it is still registered when reached. `effects` gives the change each
callback makes to the registration set. Returns the final registration set
and the log of invoked ids. -/
def emitWithDeletes (effects : Nat → List Nat → List Nat) :
    List Nat → List Nat → List Nat → List Nat × List Nat
  | [], regs, log => (regs, log)
  | i :: rest, regs, log =>
    if i ∈ regs then emitWithDeletes effects rest (effects i regs) (log ++ [i])
    else emitWithDeletes effects rest regs log

/-- The claim scenario: callbacks A, B, C registered as ids 1, 2, 3, where B
deletes its own subscription while being invoked and A, C do nothing. -/
def selfDeleteEffects : Nat → List Nat → List Nat :=
  fun i regs => if i = 2 then eraseReg regs 2 else regs

/-! ### The MessageUpdate decode-and-apply path (socket.go) -/

/-- The optimized message projection, restricted to the fields the
MessageUpdate branch of `Socket.process` touches. -/
structure OptimizedMessage where
  content : String
  embeds : List String
  deriving DecidableEq, Repr

/-- The wire patch carried by a MessageUpdate frame (only changed fields are
present). -/
structure MessageUpdateData where
  content : Option String
  embeds : Option (List String)

/-- The in-place mutator passed to `Cache.Messages.PartiallyUpdate` by the
MessageUpdate branch of `Socket.process`: content and embeds are overwritten
only when present in the patch. -/
def messageUpdatePatch (d : MessageUpdateData) (m : OptimizedMessage) :
    OptimizedMessage :=
  let m := match d.content with
    | some s => { m with content := s }
    | none => m
  match d.embeds with
  | some es => { m with embeds := es }
  | none => m

/-- The cache mutation performed for one MessageUpdate frame (the follow-up
handed to `EmitAndCall`). -/
def messageUpdateMutation (ch mid : ULID) (d : MessageUpdateData)
    (c : Cache2 OptimizedMessage) : Cache2 OptimizedMessage :=
  cache2PartiallyUpdate c ch mid (messageUpdatePatch d)

/-- A subscriber callback that only reads the message cache and records its
observation, as in the spec scenario of a subscriber asserting on cache
state. -/
def readerCallback {A : Type} (read : Cache2 OptimizedMessage → A) :
    Cache2 OptimizedMessage × List A → Cache2 OptimizedMessage × List A :=
  fun s => (s.1, s.2 ++ [read s.1])

/-- Processing of one MessageUpdate frame through
`Socket.Events.MessageUpdate.EmitAndCall` with read-only subscribers:
returns the final cache together with the observations each subscriber made
of the cache from inside its callback. -/
def messageUpdateEmit {A : Type} (reads : List (Cache2 OptimizedMessage → A))
    (ch mid : ULID) (d : MessageUpdateData) (c0 : Cache2 OptimizedMessage) :
    Cache2 OptimizedMessage × List A :=
  emitAndCallRun (reads.map readerCallback)
    (fun s => (messageUpdateMutation ch mid d s.1, s.2)) (c0, [])

/-! ### The frame processor and read loop (socket.go) -/

/-- The frame discriminators whose `Socket.process` branch decodes a typed
payload via `socket.unmarshal` and forwards a decode failure to
`socket.emitError` (every case of the type switch except Error, NotFound and
Authenticated, which decode nothing). -/
def decodedTypes : List String :=
  ["Bulk", "Pong", "Ready", "Message", "MessageUpdate", "MessageAppend",
   "MessageDelete", "MessageReact", "MessageUnreact", "MessageRemoveReaction",
   "BulkDeleteMessage", "ChannelCreate", "ChannelUpdate", "ChannelDelete",
   "ChannelGroupJoin", "ChannelGroupLeave", "ChannelStartTyping",
   "ChannelStopTyping", "ChannelAck", "ServerCreate", "ServerUpdate",
   "ServerDelete", "ServerMemberUpdate", "ServerMemberJoin",
   "ServerMemberLeave", "ServerRoleUpdate", "ServerRoleDelete", "UserUpdate",
   "UserRelationship", "UserSettingsUpdate", "UserPlatformWipe", "EmojiCreate",
   "EmojiDelete", "WebhookCreate", "WebhookUpdate", "WebhookDelete",
   "ReportCreate", "Auth"]

/-- The shape of one incoming byte sequence, as distinguished by
`Socket.process`: the top-level `json.Unmarshal` into `map[string]any` either
fails, or succeeds with no string value under the type key, or succeeds with
a string discriminator. In the last case `payloadDecodeOk` records whether
the per-type `socket.unmarshal` call succeeds and `errFieldIsString` whether
an Error frame carries a string under its error key. -/
inductive FrameShape
  | malformed
  | noStringType
  | wellTyped (typ : String) (payloadDecodeOk : Bool) (errFieldIsString : Bool)

/-- What `Socket.process` does with one frame. -/
inductive ProcessOutcome
  | silentReturn
  | panicked
  | decodeErrorEmitted
  | handled
  | unknownLogged
  deriving DecidableEq

/-- `Socket.process` from socket.go, by frame shape: a failed top-level
parse returns with no emission at all; a frame without a string type key
dies on the unchecked assertion in the expression that reads the type key;
an Error frame dies the same way when its error field is not a string; a
known discriminator whose typed decode fails goes through `emitError`; an
unknown discriminator is logged and ignored. -/
def processOutcome : FrameShape → ProcessOutcome
  | .malformed => .silentReturn
  | .noStringType => .panicked
  | .wellTyped t ok errStr =>
    if t = "Error" then (if errStr then .handled else .panicked)
    else if t = "NotFound" ∨ t = "Authenticated" then .handled
    else if t ∈ decodedTypes then (if ok then .handled else .decodeErrorEmitted)
    else .unknownLogged

/-- Whether the `Socket.listener` loop is still running after `process`
returns: a panic in `process` propagates and kills the read loop, every
other outcome returns normally into the next loop iteration. -/
def loopSurvives (o : ProcessOutcome) : Bool :=
  match o with
  | .panicked => false
  | _ => true

/-- Result of one `Connection.ReadMessage` call in `Socket.listener`. -/
inductive ReadResult
  | failure
  | textFrame
  | nonTextFrame

/-- What one iteration of the `Socket.listener` loop decides to do. -/
inductive ListenerStep
  | exitLoop
  | reconnect
  | processFrame
  | skipFrame
  deriving DecidableEq

/-- One iteration of `Socket.listener` from socket.go. The closed flag is
consulted exactly once, at the top of the loop, before the blocking read;
`closedAtRead` is the value the flag has by the time `ReadMessage` returns
(a concurrent explicit close may have set it meanwhile) and the code never
consults it: a read failure leads to an error emission, a fixed sleep and an
unconditional `Open()` reconnect attempt. -/
def listenerIteration (closedAtTop closedAtRead : Bool) (r : ReadResult) :
    ListenerStep :=
  if closedAtTop then .exitLoop
  else
    match r with
    | .failure => .reconnect
    | .textFrame => .processFrame
    | .nonTextFrame => .skipFrame

/-- What the transport close handler installed by `Socket.Connect` does. -/
inductive CloseHandlerStep
  | ignore
  | reopen
  deriving DecidableEq

/-- The close handler installed by `Socket.Connect`: return immediately when
the closed flag is set, otherwise tear down and re-run the full `Open`
sequence. -/
def closeHandler (closed : Bool) : CloseHandlerStep :=
  if closed then .ignore else .reopen

/-! ### User bitfield patches (socket.go, UserUpdate branch) -/

/-- Modelled from the spec: the `OptimizedUserFlags` bitfield layout and its
`updateBadges` and `updateFlags` methods live in a source file that is not
part of the sources under verification (only their call sites in the
UserUpdate branch of `Socket.process` are). The spec describes a single
integer bitfield in which badges, flags and the online indicator occupy
disjoint bits, updated by mask/set semantics and never by replacing the
whole bitfield. Here badges occupy bits 0 to 31, flags bits 32 to 63 and
online is bit 64; 4294967296 is 2 to the 32nd power and 18446744073709551616
is 2 to the 64th power. The badges region of the combined bitfield. -/
def ouBadgesPart (f : Nat) : Nat := f % 4294967296

/-- The flags region (bits 32 to 63) of the combined bitfield. -/
def ouFlagsPart (f : Nat) : Nat := f / 4294967296 % 4294967296

/-- The online bit (bit 64) of the combined bitfield. -/
def ouOnlineBit (f : Nat) : Nat := f / 18446744073709551616 % 2

/-- Modelled from the spec: `OptimizedUserFlags.updateBadges` overwrites only
the badges region, leaving all higher bits intact. -/
def updateBadges (f b : Nat) : Nat :=
  f / 4294967296 * 4294967296 + b % 4294967296

/-- Modelled from the spec: `OptimizedUserFlags.updateFlags` overwrites only
the flags region, leaving the badges region and all higher bits intact. -/
def updateFlags (f g : Nat) : Nat :=
  f / 18446744073709551616 * 18446744073709551616 +
    g % 4294967296 * 4294967296 + f % 4294967296

/-- The bit operations `u.Flags |= OptimizedUserFlagsOnline` and
`u.Flags &= ^OptimizedUserFlagsOnline` from the UserUpdate branch, on the
model in which bit 64 is the online bit and no higher bits exist. -/
def setOnline (f : Nat) (b : Bool) : Nat :=
  if b then f % 18446744073709551616 + 18446744073709551616
  else f % 18446744073709551616

/-- The optimized user projection, restricted to the fields the claim is
about. -/
structure OptimizedUser where
  flags : Nat
  username : String

/-- The wire patch carried by a UserUpdate frame, restricted to the fields
the claim is about (only changed fields are present). -/
structure UserUpdateData where
  badges : Option Nat
  flags : Option Nat
  online : Option Bool
  username : Option String

/-- The in-place mutator passed to `Cache.Users.PartiallyUpdate` by the
UserUpdate branch of `Socket.process`, field order as in the code: badges,
then flags, then online, then username. -/
def applyUserUpdateData (d : UserUpdateData) (u : OptimizedUser) :
    OptimizedUser :=
  let u1 := match d.badges with
    | some b => { u with flags := updateBadges u.flags b }
    | none => u
  let u2 := match d.flags with
    | some g => { u1 with flags := updateFlags u1.flags g }
    | none => u1
  let u3 := match d.online with
    | some b => { u2 with flags := setOnline u2.flags b }
    | none => u2
  match d.username with
  | some n => { u3 with username := n }
  | none => u3

/-! ### Association-list lemmas -/

theorem alookup_isSome_iff {α : Type} (m : List (ULID × α)) (k : ULID) :
    (alookup m k).isSome = true ↔ k ∈ keys m := by
  induction m with
  | nil => simp [alookup, keys]
  | cons p rest ih =>
    obtain ⟨k', v'⟩ := p
    by_cases h : k' = k
    · subst h; simp [alookup, keys]
    · simp [alookup, keys, h, ih, Ne.symm h]

theorem alookup_eq_none_iff {α : Type} (m : List (ULID × α)) (k : ULID) :
    alookup m k = none ↔ k ∉ keys m := by
  rw [← alookup_isSome_iff]
  cases alookup m k <;> simp

theorem keys_cons {α : Type} (k0 : ULID) (v0 : α) (rest : List (ULID × α)) :
    keys ((k0, v0) :: rest) = k0 :: keys rest := rfl

theorem alookup_cons_self {α : Type} (k : ULID) (v : α)
    (rest : List (ULID × α)) : alookup ((k, v) :: rest) k = some v := by
  simp [alookup]

theorem alookup_cons_ne {α : Type} {k0 k : ULID} (v0 : α)
    (rest : List (ULID × α)) (h : k0 ≠ k) :
    alookup ((k0, v0) :: rest) k = alookup rest k := by
  simp [alookup, h]

theorem alookup_some_mem {α : Type} {m : List (ULID × α)} {k : ULID} {v : α}
    (h : alookup m k = some v) : (k, v) ∈ m := by
  induction m with
  | nil => simp [alookup] at h
  | cons p rest ih =>
    obtain ⟨k', v'⟩ := p
    by_cases hk : k' = k
    · subst hk
      rw [alookup_cons_self, Option.some_inj] at h
      subst h; exact List.mem_cons_self _ _
    · rw [alookup_cons_ne v' rest hk] at h
      exact List.mem_cons_of_mem _ (ih h)

theorem alookup_ainsert_self {α : Type} (m : List (ULID × α)) (k : ULID)
    (v : α) : alookup (ainsert m k v) k = some v := by
  induction m with
  | nil => simp [ainsert, alookup]
  | cons p rest ih =>
    obtain ⟨k', v'⟩ := p
    by_cases h : k' = k
    · subst h; simp [ainsert, alookup]
    · simp [ainsert, alookup, h, ih]

theorem alookup_ainsert_ne {α : Type} (m : List (ULID × α)) {k k' : ULID}
    (v : α) (h : k' ≠ k) : alookup (ainsert m k v) k' = alookup m k' := by
  induction m with
  | nil => simp [ainsert, alookup, Ne.symm h]
  | cons p rest ih =>
    obtain ⟨k0, v0⟩ := p
    by_cases h0 : k0 = k
    · subst h0; simp [ainsert, alookup, Ne.symm h]
    · by_cases h1 : k0 = k'
      · subst h1; simp [ainsert, alookup, h0]
      · simp [ainsert, alookup, h0, h1, ih]

theorem mem_keys_ainsert {α : Type} (m : List (ULID × α)) (k a : ULID)
    (v : α) (h : a ∈ keys (ainsert m k v)) : a = k ∨ a ∈ keys m := by
  induction m with
  | nil => simpa [ainsert, keys] using h
  | cons p rest ih =>
    obtain ⟨k0, v0⟩ := p
    by_cases h0 : k0 = k
    · subst h0
      rw [show ainsert ((k0, v0) :: rest) k0 v = (k0, v) :: rest from by
        simp [ainsert], keys_cons, List.mem_cons] at h
      rcases h with h1 | h1
      · exact Or.inl h1
      · exact Or.inr (by rw [keys_cons, List.mem_cons]; exact Or.inr h1)
    · rw [show ainsert ((k0, v0) :: rest) k v = (k0, v0) :: ainsert rest k v from by
        simp [ainsert, h0], keys_cons, List.mem_cons] at h
      rcases h with h1 | h1
      · exact Or.inr (by rw [keys_cons, List.mem_cons]; exact Or.inl h1)
      · rcases ih h1 with h2 | h2
        · exact Or.inl h2
        · exact Or.inr (by rw [keys_cons, List.mem_cons]; exact Or.inr h2)

theorem nodup_ainsert {α : Type} (m : List (ULID × α)) (k : ULID) (v : α)
    (h : NodupKeys m) : NodupKeys (ainsert m k v) := by
  induction m with
  | nil => simp [ainsert, NodupKeys, keys]
  | cons p rest ih =>
    obtain ⟨k0, v0⟩ := p
    simp only [NodupKeys, keys, List.map_cons, List.nodup_cons] at h
    by_cases h0 : k0 = k
    · subst h0
      simpa [ainsert, NodupKeys, keys, List.nodup_cons] using h
    · have hr := ih h.2
      simp only [ainsert, if_neg h0, NodupKeys, keys, List.map_cons,
        List.nodup_cons]
      refine ⟨fun hmem => ?_, hr⟩
      rcases mem_keys_ainsert rest k k0 v hmem with h1 | h1
      · exact h0 h1
      · exact h.1 h1

theorem length_ainsert_le {α : Type} (m : List (ULID × α)) (k : ULID)
    (v : α) : (ainsert m k v).length ≤ m.length + 1 := by
  induction m with
  | nil => simp [ainsert]
  | cons p rest ih =>
    obtain ⟨k0, v0⟩ := p
    by_cases h0 : k0 = k
    · subst h0; simp [ainsert]
    · simpa [ainsert, h0] using ih

theorem length_ainsert_mem {α : Type} (m : List (ULID × α)) (k : ULID)
    (v : α) (h : k ∈ keys m) : (ainsert m k v).length = m.length := by
  induction m with
  | nil => simp [keys] at h
  | cons p rest ih =>
    obtain ⟨k0, v0⟩ := p
    by_cases h0 : k0 = k
    · subst h0; simp [ainsert]
    · have : k ∈ keys rest := by
        rcases (by simpa [keys] using h : k = k0 ∨ k ∈ keys rest) with h1 | h1
        · exact absurd h1.symm h0
        · exact h1
      simp [ainsert, h0, ih this]

theorem length_ainsert_not_mem {α : Type} (m : List (ULID × α)) (k : ULID)
    (v : α) (h : k ∉ keys m) : (ainsert m k v).length = m.length + 1 := by
  induction m with
  | nil => simp [ainsert]
  | cons p rest ih =>
    obtain ⟨k0, v0⟩ := p
    simp only [keys, List.map_cons, List.mem_cons] at h
    push_neg at h
    have h0 : k0 ≠ k := fun hk => h.1 hk.symm
    simp [ainsert, h0, ih h.2]

theorem ainsert_ainsert_same {α : Type} (m : List (ULID × α)) (k : ULID)
    (v : α) : ainsert (ainsert m k v) k v = ainsert m k v := by
  induction m with
  | nil => simp [ainsert]
  | cons p rest ih =>
    obtain ⟨k0, v0⟩ := p
    by_cases h0 : k0 = k
    · subst h0; simp [ainsert]
    · simp [ainsert, h0, ih]

theorem aerase_of_not_mem {α : Type} (m : List (ULID × α)) (k : ULID)
    (h : k ∉ keys m) : aerase m k = m := by
  induction m with
  | nil => simp [aerase]
  | cons p rest ih =>
    obtain ⟨k0, v0⟩ := p
    simp only [keys, List.map_cons, List.mem_cons] at h
    push_neg at h
    have h0 : k0 ≠ k := fun hk => h.1 hk.symm
    simp [aerase, h0, ih h.2]

theorem keys_aerase_sublist {α : Type} (m : List (ULID × α)) (k : ULID) :
    (keys (aerase m k)).Sublist (keys m) := by
  induction m with
  | nil => simp [aerase, keys]
  | cons p rest ih =>
    obtain ⟨k0, v0⟩ := p
    by_cases h0 : k0 = k
    · subst h0
      simpa [aerase, keys] using ih.cons k0
    · simpa [aerase, keys, h0] using ih.cons₂ k0

theorem nodup_aerase {α : Type} (m : List (ULID × α)) (k : ULID)
    (h : NodupKeys m) : NodupKeys (aerase m k) :=
  List.Nodup.sublist (keys_aerase_sublist m k) h

theorem mem_aerase {α : Type} {m : List (ULID × α)} {k : ULID}
    {p : ULID × α} (h : p ∈ aerase m k) : p ∈ m := by
  induction m with
  | nil => simp [aerase] at h
  | cons q rest ih =>
    obtain ⟨k0, v0⟩ := q
    by_cases h0 : k0 = k
    · subst h0
      simp only [aerase, if_pos rfl] at h
      exact List.mem_cons_of_mem _ (ih h)
    · rcases (by simpa [aerase, h0] using h : p = (k0, v0) ∨ p ∈ aerase rest k) with h1 | h1
      · simp [h1]
      · exact List.mem_cons_of_mem _ (ih h1)

theorem mem_ainsert {α : Type} {m : List (ULID × α)} {k : ULID} {v : α}
    {p : ULID × α} (h : p ∈ ainsert m k v) : p = (k, v) ∨ p ∈ m := by
  induction m with
  | nil => simpa [ainsert] using h
  | cons q rest ih =>
    obtain ⟨k0, v0⟩ := q
    by_cases h0 : k0 = k
    · subst h0
      rcases (by simpa [ainsert] using h : p = (k0, v) ∨ p ∈ rest) with h1 | h1
      · exact Or.inl h1
      · exact Or.inr (List.mem_cons_of_mem _ h1)
    · rcases (by simpa [ainsert, h0] using h : p = (k0, v0) ∨ p ∈ ainsert rest k v) with h1 | h1
      · exact Or.inr (by simp [h1])
      · rcases ih h1 with h2 | h2
        · exact Or.inl h2
        · exact Or.inr (List.mem_cons_of_mem _ h2)

theorem length_aerase_nodup {α : Type} (m : List (ULID × α)) (k : ULID)
    (hn : NodupKeys m) (h : k ∈ keys m) :
    (aerase m k).length + 1 = m.length := by
  induction m with
  | nil => simp [keys] at h
  | cons p rest ih =>
    obtain ⟨k0, v0⟩ := p
    simp only [NodupKeys, keys, List.map_cons, List.nodup_cons] at hn
    by_cases h0 : k0 = k
    · subst h0
      rw [show aerase ((k0, v0) :: rest) k0 = aerase rest k0 from by
        simp [aerase]]
      rw [aerase_of_not_mem rest k0 hn.1]
      simp
    · have hk : k ∈ keys rest := by
        rcases (by simpa [keys] using h : k = k0 ∨ k ∈ keys rest) with h1 | h1
        · exact absurd h1.symm h0
        · exact h1
      simp only [aerase, if_neg h0, List.length_cons]
      rw [← ih hn.2 hk]

/-! ### entryCount lemmas for the two-level cache -/

theorem entryCount_ainsert_some {T : Type}
    {m : List (ULID × List (ULID × T))} {k : ULID}
    {g : List (ULID × T)} (g' : List (ULID × T))
    (h : alookup m k = some g) :
    entryCount (ainsert m k g') + g.length = entryCount m + g'.length := by
  induction m with
  | nil => simp [alookup] at h
  | cons p rest ih =>
    obtain ⟨k0, v0⟩ := p
    by_cases h0 : k0 = k
    · subst h0
      rw [alookup_cons_self, Option.some_inj] at h
      subst h
      simp [ainsert, entryCount]
      omega
    · rw [alookup_cons_ne v0 rest h0] at h
      simp only [ainsert, if_neg h0, entryCount, List.map_cons, List.sum_cons]
      have := ih h
      simp only [entryCount] at this
      omega

theorem entryCount_ainsert_none {T : Type}
    {m : List (ULID × List (ULID × T))} {k : ULID} (g' : List (ULID × T))
    (h : alookup m k = none) :
    entryCount (ainsert m k g') = entryCount m + g'.length := by
  induction m with
  | nil => simp [ainsert, entryCount]
  | cons p rest ih =>
    obtain ⟨k0, v0⟩ := p
    by_cases h0 : k0 = k
    · subst h0; rw [alookup_cons_self] at h; exact absurd h (by simp)
    · rw [alookup_cons_ne v0 rest h0] at h
      simp only [ainsert, if_neg h0, entryCount, List.map_cons, List.sum_cons]
      have := ih h
      simp only [entryCount] at this
      omega

theorem entryCount_aerase {T : Type} {m : List (ULID × List (ULID × T))}
    {k : ULID} {g : List (ULID × T)} (hn : NodupKeys m)
    (h : alookup m k = some g) :
    entryCount (aerase m k) + g.length = entryCount m := by
  induction m with
  | nil => simp [alookup] at h
  | cons p rest ih =>
    obtain ⟨k0, v0⟩ := p
    simp only [NodupKeys, keys, List.map_cons, List.nodup_cons] at hn
    by_cases h0 : k0 = k
    · subst h0
      rw [alookup_cons_self, Option.some_inj] at h
      subst h
      rw [show aerase ((k0, v0) :: rest) k0 = aerase rest k0 from by
        simp [aerase]]
      rw [aerase_of_not_mem rest k0 hn.1]
      simp only [entryCount, List.map_cons, List.sum_cons]
      omega
    · rw [alookup_cons_ne v0 rest h0] at h
      simp only [aerase, if_neg h0, entryCount, List.map_cons, List.sum_cons]
      have := ih hn.2 h
      simp only [entryCount] at this
      omega

/-! ### Well-formedness preservation for Cache2 -/

theorem wf_groups_nodup {T : Type} {c : Cache2 T} (h : Cache2WF c)
    {parent : ULID} {p : List (ULID × T)}
    (e : alookup c.cache parent = some p) : NodupKeys p :=
  h.2.2 _ (alookup_some_mem e)

theorem wf_delEntry {T : Type} (c : Cache2 T) (parent i : ULID)
    (h : Cache2WF c) : Cache2WF (cache2DelEntry c parent i) := by
  obtain ⟨htot, hnk, hgr⟩ := h
  unfold cache2DelEntry
  cases e1 : alookup c.cache parent with
  | none => exact ⟨htot, hnk, hgr⟩
  | some p =>
    have hpnd : NodupKeys p := hgr _ (alookup_some_mem e1)
    have hec := entryCount_ainsert_some (aerase p i) e1
    refine ⟨?_, nodup_ainsert _ _ _ hnk, ?_⟩
    · by_cases e2 : i ∈ keys p
      · have hsome : (alookup p i).isSome = true := (alookup_isSome_iff p i).mpr e2
        have hlen := length_aerase_nodup p i hpnd e2
        simp only [hsome, if_true]
        omega
      · have hnone : alookup p i = none := (alookup_eq_none_iff p i).mpr e2
        have hlen : aerase p i = p := aerase_of_not_mem p i e2
        simp only [hnone, Option.isSome_none, Bool.false_eq_true, if_false]
        rw [hlen] at hec ⊢
        omega
    · intro q hq
      rcases mem_ainsert hq with h1 | h1
      · subst h1; exact nodup_aerase _ _ hpnd
      · exact hgr _ h1

theorem wf_ins {T : Type} (key : T → ULID) (c : Cache2 T) (parent : ULID)
    (e : T) (h : Cache2WF c) : Cache2WF (cache2Ins key c parent e) := by
  obtain ⟨htot, hnk, hgr⟩ := h
  unfold cache2Ins
  split
  next e1 =>
    have hec := entryCount_ainsert_none [(key e, e)] e1
    refine ⟨?_, nodup_ainsert _ _ _ hnk, ?_⟩
    · dsimp only
      simp only [List.length_cons, List.length_nil] at hec
      omega
    · intro q hq
      rcases mem_ainsert hq with h1 | h1
      · subst h1; simp [NodupKeys, keys]
      · exact hgr _ h1
  next m e1 =>
    have hmnd : NodupKeys m := hgr _ (alookup_some_mem e1)
    have hec := entryCount_ainsert_some (ainsert m (key e) e) e1
    refine ⟨?_, nodup_ainsert _ _ _ hnk, ?_⟩
    · dsimp only
      by_cases e2 : key e ∈ keys m
      · have hsome : (alookup m (key e)).isSome = true :=
          (alookup_isSome_iff m (key e)).mpr e2
        have hlen := length_ainsert_mem m (key e) e e2
        simp only [hsome, if_true]
        omega
      · have hnone : alookup m (key e) = none := (alookup_eq_none_iff m (key e)).mpr e2
        have hlen := length_ainsert_not_mem m (key e) e e2
        simp only [hnone, Option.isSome_none, Bool.false_eq_true, if_false]
        omega
    · intro q hq
      rcases mem_ainsert hq with h1 | h1
      · subst h1; exact nodup_ainsert _ _ _ hmnd
      · exact hgr _ h1

theorem wf_evictOnePerGroup {T : Type} (pickE : List (ULID × T) → ULID)
    (c : Cache2 T) (h : Cache2WF c) :
    Cache2WF (cache2EvictOnePerGroup pickE c) := by
  unfold cache2EvictOnePerGroup
  generalize keys c.cache = l
  induction l generalizing c with
  | nil => simpa using h
  | cons k1 rest ih =>
    simp only [List.foldl_cons]
    apply ih
    cases e1 : alookup c.cache k1 with
    | none => simpa [e1] using h
    | some v1 =>
      by_cases e2 : v1.isEmpty
      · simpa [e1, e2] using h
      · simpa [e1, e2] using wf_delEntry c k1 (pickE v1) h

theorem wf_resizeTail {T : Type} (pickG : List (ULID × List (ULID × T)) → ULID)
    (pickE : List (ULID × T) → ULID) (c : Cache2 T) (parent : ULID)
    (h : Cache2WF c) : Cache2WF (cache2ResizeTail pickG pickE c parent).2 := by
  obtain ⟨htot, hnk, hgr⟩ := h
  unfold cache2ResizeTail
  split
  · exact wf_delEntry c parent _ ⟨htot, hnk, hgr⟩
  · split
    · refine ⟨?_, nodup_aerase _ _ hnk, ?_⟩
      · cases e1 : alookup c.cache (pickG c.cache) with
        | none =>
          have := aerase_of_not_mem c.cache (pickG c.cache)
            ((alookup_eq_none_iff _ _).mp e1)
          simp only [e1, Option.getD_none, List.length_nil, this]
          omega
        | some gl =>
          have hec := entryCount_aerase hnk e1
          simp only [e1, Option.getD_some]
          omega
      · intro q hq
        exact hgr _ (mem_aerase hq)
    · exact ⟨htot, hnk, hgr⟩

theorem wf_resize {T : Type} (key : T → ULID)
    (pickG : List (ULID × List (ULID × T)) → ULID)
    (pickE : List (ULID × T) → ULID) (c : Cache2 T) (parent : ULID) (e : T)
    (h : Cache2WF c) : Cache2WF (cache2Resize key pickG pickE c parent e).2 := by
  unfold cache2Resize
  split
  · exact h
  · split
    · split
      · exact h
      · split
        · split
          · exact h
          · exact wf_resizeTail _ _ _ _ (wf_evictOnePerGroup _ _ h)
        · exact wf_resizeTail _ _ _ _ h
    · exact h

theorem wf_set {T : Type} (key : T → ULID)
    (pickG : List (ULID × List (ULID × T)) → ULID)
    (pickE : List (ULID × T) → ULID) (c : Cache2 T) (parent : ULID) (v : T)
    (h : Cache2WF c) : Cache2WF (cache2Set key pickG pickE c parent v) := by
  unfold cache2Set
  have hr := wf_resize key pickG pickE c parent v h
  cases e1 : cache2Resize key pickG pickE c parent v with
  | mk b c2 =>
    cases b
    · exact h
    · rw [e1] at hr
      exact wf_ins key c2 parent v hr

theorem wf_delGroup {T : Type} (c : Cache2 T) (parent : ULID)
    (h : Cache2WF c) : Cache2WF (cache2DelGroup c parent) := by
  obtain ⟨htot, hnk, hgr⟩ := h
  unfold cache2DelGroup
  split
  next e1 => exact ⟨htot, hnk, hgr⟩
  next m e1 =>
    have hec := entryCount_aerase hnk e1
    refine ⟨?_, nodup_aerase _ _ hnk, ?_⟩
    · dsimp only
      omega
    · intro q hq
      exact hgr _ (mem_aerase hq)

theorem wf_partiallyUpdate {T : Type} (c : Cache2 T) (parent i : ULID)
    (f : T → T) (h : Cache2WF c) :
    Cache2WF (cache2PartiallyUpdate c parent i f) := by
  obtain ⟨htot, hnk, hgr⟩ := h
  unfold cache2PartiallyUpdate cache2PartiallyUpdateN
  split
  next e1 => exact ⟨htot, hnk, hgr⟩
  next x e1 =>
    split
    next e2 => exact ⟨htot, hnk, hgr⟩
    next y e2 =>
      have hxnd : NodupKeys x := hgr _ (alookup_some_mem e1)
      have hmem : i ∈ keys x := (alookup_isSome_iff x i).mp (by simp [e2])
      have hec := entryCount_ainsert_some (ainsert x i (f y)) e1
      have hlen := length_ainsert_mem x i (f y) hmem
      dsimp only
      refine ⟨?_, nodup_ainsert _ _ _ hnk, ?_⟩
      · dsimp only
        omega
      · intro q hq
        rcases mem_ainsert hq with h1 | h1
        · subst h1; exact nodup_ainsert _ _ _ hxnd
        · exact hgr _ h1

theorem reachable_wf {T : Type} (key : T → ULID) (c : Cache2 T)
    (h : Cache2Reachable key c) : Cache2WF c := by
  induction h with
  | init checker ms1 ms2 tms dont =>
    exact ⟨by simp [entryCount], by simp [NodupKeys, keys], by simp⟩
  | set pickG pickE parent e c hc ih => exact wf_set _ _ _ _ _ _ ih
  | del parent i c hc ih => exact wf_delEntry _ _ _ ih
  | delGroup parent c hc ih => exact wf_delGroup _ _ ih
  | partiallyUpdate parent i f c hc ih => exact wf_partiallyUpdate _ _ _ _ ih

/-! ### Size bound for Cache1 -/

theorem length_aerase_le {α : Type} (m : List (ULID × α)) (k : ULID) :
    (aerase m k).length ≤ m.length := by
  induction m with
  | nil => simp [aerase]
  | cons p rest ih =>
    obtain ⟨k0, v0⟩ := p
    by_cases h0 : k0 = k
    · subst h0
      rw [show aerase ((k0, v0) :: rest) k0 = aerase rest k0 from by
        simp [aerase]]
      simp only [List.length_cons]
      omega
    · simp only [aerase, if_neg h0, List.length_cons]; omega

theorem length_aerase_mem_lt {α : Type} (m : List (ULID × α)) (k : ULID)
    (h : k ∈ keys m) : (aerase m k).length < m.length := by
  induction m with
  | nil => simp [keys] at h
  | cons p rest ih =>
    obtain ⟨k0, v0⟩ := p
    by_cases h0 : k0 = k
    · subst h0
      rw [show aerase ((k0, v0) :: rest) k0 = aerase rest k0 from by
        simp [aerase]]
      simp only [List.length_cons]
      exact Nat.lt_succ_of_le (length_aerase_le rest k0)
    · have hk : k ∈ keys rest := by
        rw [keys_cons, List.mem_cons] at h
        rcases h with h1 | h1
        · exact absurd h1.symm h0
        · exact h1
      simp only [aerase, if_neg h0, List.length_cons]
      exact Nat.succ_lt_succ (ih hk)

theorem cache1Resize_fields {T : Type} (key : T → ULID)
    (evict : List (ULID × T) → ULID) (c : Cache1 T) (v : T) :
    (cache1Resize key evict c v).2.maxSize = c.maxSize ∧
      (cache1Resize key evict c v).2.checker = c.checker ∧
      (cache1Resize key evict c v).2.dontInsertIfOverflow = c.dontInsertIfOverflow := by
  unfold cache1Resize
  repeat' split
  all_goals exact ⟨rfl, rfl, rfl⟩

theorem cache1Set_eq_of_resize_false {T : Type} (key : T → ULID)
    (evict : List (ULID × T) → ULID) (c : Cache1 T) (v : T)
    (h : (cache1Resize key evict c v).1 = false) :
    cache1Set key evict c v = c := by
  unfold cache1Set
  cases hr : cache1Resize key evict c v with
  | mk b c2 =>
    rw [hr] at h
    cases b
    · rfl
    · simp at h

theorem cache1Set_eq_of_resize_true {T : Type} (key : T → ULID)
    (evict : List (ULID × T) → ULID) (c c2 : Cache1 T) (v : T)
    (h : cache1Resize key evict c v = (true, c2)) :
    cache1Set key evict c v = { c2 with cache := ainsert c2.cache (key v) v } := by
  unfold cache1Set
  rw [h]

theorem cache1Set_fields {T : Type} (key : T → ULID)
    (evict : List (ULID × T) → ULID) (c : Cache1 T) (v : T) :
    (cache1Set key evict c v).maxSize = c.maxSize ∧
      (cache1Set key evict c v).checker = c.checker ∧
      (cache1Set key evict c v).dontInsertIfOverflow = c.dontInsertIfOverflow := by
  have hf := cache1Resize_fields key evict c v
  cases hr : cache1Resize key evict c v with
  | mk b c2 =>
    rw [hr] at hf
    cases b
    · rw [cache1Set_eq_of_resize_false key evict c v (by rw [hr])]
      exact ⟨rfl, rfl, rfl⟩
    · rw [cache1Set_eq_of_resize_true key evict c c2 v hr]
      exact hf

theorem cache1Resize_overflow_evict {T : Type} (key : T → ULID)
    (evict : List (ULID × T) → ULID) (c : Cache1 T) (v : T)
    (hpos : 0 < c.maxSize) (hA : cache1Allows c v = true)
    (hover : c.maxSize ≤ (c.cache.length : Int))
    (hd : c.dontInsertIfOverflow = false) :
    cache1Resize key evict c v =
      (true, { c with cache := ainsert (aerase c.cache (evict c.cache)) (key v) v }) := by
  unfold cache1Resize
  rw [if_neg (show ¬ c.maxSize = 0 by omega), if_pos hpos,
    if_neg (show ¬ (!cache1Allows c v) = true by simp [hA]), if_pos hover,
    if_neg (show ¬ c.dontInsertIfOverflow = true by simp [hd])]

theorem cache1Resize_insert {T : Type} (key : T → ULID)
    (evict : List (ULID × T) → ULID) (c : Cache1 T) (v : T)
    (hpos : 0 < c.maxSize) (hA : cache1Allows c v = true)
    (hover : ¬ c.maxSize ≤ (c.cache.length : Int)) :
    cache1Resize key evict c v =
      (true, { c with cache := ainsert c.cache (key v) v }) := by
  unfold cache1Resize
  rw [if_neg (show ¬ c.maxSize = 0 by omega), if_pos hpos,
    if_neg (show ¬ (!cache1Allows c v) = true by simp [hA]), if_neg hover]

theorem cache1Resize_reject {T : Type} (key : T → ULID)
    (evict : List (ULID × T) → ULID) (c : Cache1 T) (v : T)
    (hpos : 0 < c.maxSize) (hA : cache1Allows c v = false) :
    cache1Resize key evict c v = (false, c) := by
  unfold cache1Resize
  rw [if_neg (show ¬ c.maxSize = 0 by omega), if_pos hpos,
    if_pos (show (!cache1Allows c v) = true by simp [hA])]

theorem cache1Resize_dontInsert {T : Type} (key : T → ULID)
    (evict : List (ULID × T) → ULID) (c : Cache1 T) (v : T)
    (hpos : 0 < c.maxSize) (hA : cache1Allows c v = true)
    (hover : c.maxSize ≤ (c.cache.length : Int))
    (hd : c.dontInsertIfOverflow = true) :
    cache1Resize key evict c v = (false, c) := by
  unfold cache1Resize
  rw [if_neg (show ¬ c.maxSize = 0 by omega), if_pos hpos,
    if_neg (show ¬ (!cache1Allows c v) = true by simp [hA]), if_pos hover,
    if_pos hd]

theorem cache1Set_length_le {T : Type} (key : T → ULID)
    (evict : List (ULID × T) → ULID)
    (hev : ∀ m : List (ULID × T), m ≠ [] → evict m ∈ keys m)
    (c : Cache1 T) (v : T) (hpos : 0 < c.maxSize)
    (h : (c.cache.length : Int) ≤ c.maxSize) :
    ((cache1Set key evict c v).cache.length : Int) ≤ c.maxSize := by
  cases hA : cache1Allows c v with
  | false =>
    rw [cache1Set_eq_of_resize_false key evict c v
      (by rw [cache1Resize_reject key evict c v hpos hA])]
    exact h
  | true =>
    by_cases hover : c.maxSize ≤ (c.cache.length : Int)
    · cases hd : c.dontInsertIfOverflow with
      | true =>
        rw [cache1Set_eq_of_resize_false key evict c v
          (by rw [cache1Resize_dontInsert key evict c v hpos hA hover hd])]
        exact h
      | false =>
        rw [cache1Set_eq_of_resize_true key evict c _ v
          (cache1Resize_overflow_evict key evict c v hpos hA hover hd)]
        dsimp only
        rw [ainsert_ainsert_same]
        have hne : c.cache ≠ [] := by
          intro hnil
          rw [hnil] at hover
          simp only [List.length_nil, Nat.cast_zero] at hover
          omega
        have h1 := length_aerase_mem_lt c.cache (evict c.cache) (hev c.cache hne)
        have h2 := length_ainsert_le (aerase c.cache (evict c.cache)) (key v) v
        omega
    · rw [cache1Set_eq_of_resize_true key evict c _ v
        (cache1Resize_insert key evict c v hpos hA hover)]
      dsimp only
      rw [ainsert_ainsert_same]
      have h2 := length_ainsert_le c.cache (key v) v
      omega

theorem cache1SetMany_length_le {T : Type} (key : T → ULID)
    (evict : List (ULID × T) → ULID)
    (hev : ∀ m : List (ULID × T), m ≠ [] → evict m ∈ keys m)
    (N : Int) (hN : 0 < N) (es : List T) :
    ∀ c : Cache1 T, c.maxSize = N → (c.cache.length : Int) ≤ N →
      ((cache1SetMany key evict c es).cache.length : Int) ≤ N := by
  induction es with
  | nil => intro c hm hl; simpa [cache1SetMany] using hl
  | cons v rest ih =>
    intro c hm hl
    have hm2 := (cache1Set_fields key evict c v).1
    refine ih (cache1Set key evict c v) (by rw [hm2, hm]) ?_
    have := cache1Set_length_le key evict hev c v (by omega) (by omega)
    omega

/-! ### Helper definitions for concrete witnesses -/

/-- A concrete admissible eviction choice: the first key of the association
list (one possible behaviour of a Go map range). -/
def headKey {α : Type} : List (ULID × α) → ULID
  | [] => ""
  | p :: _ => p.1

theorem headKey_valid {α : Type} :
    ∀ m : List (ULID × α), m ≠ [] → headKey m ∈ keys m := by
  intro m hm
  cases m with
  | nil => exact absurd rfl hm
  | cons p rest => simp [headKey, keys]

theorem foldl_readerCallback {A : Type}
    (reads : List (Cache2 OptimizedMessage → A))
    (c : Cache2 OptimizedMessage) (log : List A) :
    (reads.map readerCallback).foldl (fun st g => g st) (c, log) =
      (c, log ++ reads.map (fun r => r c)) := by
  induction reads generalizing log with
  | nil => simp
  | cons r rest ih =>
    simp only [List.map_cons, List.foldl_cons, readerCallback]
    rw [ih]
    simp

/-! ### Claim theorems -/

/-- Claim C1, as stated, is false on the code: it asserts that the cache
mutation derived from a MessageUpdate frame completes before any subscriber
callback runs, so that a subscriber reading the message cache sees the
patched content. At the concrete input below (one subscriber, a cached
message with content "hi", a patch to "bye"), the subscriber observes the
pre-patch content "hi", because `EmitAndCall` runs `Emit` first and the
follow-up cache mutation second. -/
theorem claim1_counterexample :
    (messageUpdateEmit [fun c => cache2Get c "c1" "m1"] "c1" "m1"
        ⟨some "bye", none⟩
        ⟨none, -1, 0, 0, 1, false, [("c1", [("m1", ⟨"hi", []⟩)])]⟩).2 =
      [some ⟨"hi", []⟩] ∧
    (messageUpdateEmit [fun c => cache2Get c "c1" "m1"] "c1" "m1"
        ⟨some "bye", none⟩
        ⟨none, -1, 0, 0, 1, false, [("c1", [("m1", ⟨"hi", []⟩)])]⟩).2 ≠
      [some ⟨"bye", []⟩] := by
  constructor
  · rfl
  · decide

/-- Claim C1 (amended): for a MessageUpdate frame dispatched through
`EmitAndCall`, the subscriber callbacks run before the cache mutation: every
read-only subscriber observes the cache exactly as it was before the patch,
and the mutation is applied only after the emission (it still runs when no
subscriber is registered). -/
theorem claim1_amended {A : Type} (reads : List (Cache2 OptimizedMessage → A))
    (ch mid : ULID) (d : MessageUpdateData) (c0 : Cache2 OptimizedMessage) :
    messageUpdateEmit reads ch mid d c0 =
      (messageUpdateMutation ch mid d c0, reads.map (fun r => r c0)) := by
  unfold messageUpdateEmit emitAndCallRun
  cases reads with
  | nil => simp
  | cons r rest =>
    simp only [List.map_cons, List.isEmpty_cons, Bool.false_eq_true, if_false]
    rw [show ((readerCallback r :: rest.map readerCallback).foldl
        (fun st g => g st) (c0, [])) =
        ((r :: rest).map readerCallback).foldl (fun st g => g st) (c0, []) from by
      simp]
    rw [foldl_readerCallback]
    simp

/-- Claim C2, as stated, is false on the code: it asserts that every code
path that re-invokes the Open sequence checks the closed flag first, so that
a read error concurrent with an explicit close produces no reconnect. In the
read loop the closed flag is read only at the top of the iteration: when the
flag becomes set while `ReadMessage` is blocked and the read then fails, the
iteration still reconnects. -/
theorem claim2_counterexample :
    listenerIteration false true ReadResult.failure = ListenerStep.reconnect ∧
    ¬ (∀ (closedAtTop closedAtRead : Bool) (r : ReadResult),
        closedAtRead = true →
        listenerIteration closedAtTop closedAtRead r ≠ ListenerStep.reconnect) := by
  constructor
  · rfl
  · intro h
    exact h false true ReadResult.failure rfl rfl

/-- Claim C2 (amended): the transport close handler suppresses its reconnect
when the closed flag is set, and the read loop exits without reconnecting
when the flag is set at the top of an iteration; but the read-error path
reconnects without re-checking the flag, so a read failure after a
concurrent explicit close still triggers a reconnect attempt. -/
theorem claim2_amended :
    closeHandler true = CloseHandlerStep.ignore ∧
    (∀ (b : Bool) (r : ReadResult),
      listenerIteration true b r = ListenerStep.exitLoop) ∧
    (∀ b : Bool,
      listenerIteration false b ReadResult.failure = ListenerStep.reconnect) :=
  ⟨rfl, fun _ _ => rfl, fun _ => rfl⟩

/-- Claim C3 asserts that with a positive total-across-all-groups cap, an
entry is evicted whenever the aggregate count has reached the cap, so Size
never exceeds TotalMaxSize. Evaluating `Cache2.Set` at the failing
configuration (TotalMaxSize = 1, MaxSize1 = MaxSize2 = 0, starting empty):
two inserts under distinct parents leave Size at 2, exceeding the cap of 1.
The total-cap eviction branch of `Cache2.resize` is unreachable for a
positive TotalMaxSize because the enclosing switch case requires
TotalMaxSize < 0 or MaxSize1 > 0 while the branch itself requires
MaxSize1 = 0 and MaxSize2 = 0. -/
theorem claim3_bug_eval :
    cache2Size (cache2Set (fun x => x) (fun _ => "") (fun _ => "")
      (cache2Set (fun x => x) (fun _ => "") (fun _ => "")
        (⟨none, 0, 0, 1, 0, false, []⟩ : Cache2 ULID) "p1" "e1")
      "p2" "e2") = 2 := by
  decide

/-- Claim C4, as stated, is false on the code: it asserts that for every
byte sequence that is not a well-formed frame the decode error is forwarded
to the generic error channel. A byte sequence whose top-level JSON parse
fails is dropped silently: `Socket.process` returns without emitting
anything. -/
theorem claim4_counterexample :
    processOutcome FrameShape.malformed = ProcessOutcome.silentReturn ∧
    ProcessOutcome.silentReturn ≠ ProcessOutcome.decodeErrorEmitted := by
  constructor
  · rfl
  · decide

/-- Claim C4 (amended): a frame whose top-level JSON parse fails is dropped
silently (nothing is emitted on the error channel) and the read loop
continues; a frame with a known discriminator whose typed payload decode
fails has the decode error forwarded via `emitError`, processing of that one
frame aborts, and the read loop continues. (A parsed frame without a string
type key instead panics, see claim C10.) -/
theorem claim4_amended :
    (∀ (t : String) (es : Bool), t ∈ decodedTypes →
      processOutcome (FrameShape.wellTyped t false es) =
        ProcessOutcome.decodeErrorEmitted ∧
      loopSurvives (processOutcome (FrameShape.wellTyped t false es)) = true) ∧
    (processOutcome FrameShape.malformed = ProcessOutcome.silentReturn ∧
      loopSurvives (processOutcome FrameShape.malformed) = true) := by
  constructor
  · intro t es ht
    have h1 : ¬ t = "Error" := by rintro rfl; revert ht; decide
    have h2 : ¬ (t = "NotFound" ∨ t = "Authenticated") := by
      rintro (rfl | rfl) <;> revert ht <;> decide
    simp [processOutcome, h1, h2, ht, loopSurvives]
  · exact ⟨rfl, rfl⟩

/-- Witness for claim C4 (amended) at the concrete discriminator "Pong". -/
theorem claim4_witness :
    processOutcome (FrameShape.wellTyped "Pong" false true) =
      ProcessOutcome.decodeErrorEmitted ∧
    loopSurvives (processOutcome (FrameShape.wellTyped "Pong" false true)) =
      true :=
  claim4_amended.1 "Pong" true (by decide)

/-- Claim C5: a single-keyed cache with positive capacity N and no admission
predicate never exceeds size N under any sequence of Set calls (for any
admissible arbitrary-eviction choice), and when DontInsertIfOverflow is set
a Set at capacity is a no-op. -/
theorem claim5_size_bound {T : Type} (key : T → ULID)
    (evict : List (ULID × T) → ULID)
    (hev : ∀ m : List (ULID × T), m ≠ [] → evict m ∈ keys m)
    (N : Int) (hN : 0 < N) (dont : Bool) (es : List T) :
    (cache1Size (cache1SetMany key evict ⟨none, dont, N, []⟩ es) : Int) ≤ N ∧
    ∀ (c : Cache1 T) (v : T), c.maxSize = N → c.dontInsertIfOverflow = true →
      N ≤ (c.cache.length : Int) → cache1Set key evict c v = c := by
  constructor
  · have := cache1SetMany_length_le key evict hev N hN es
      ⟨none, dont, N, []⟩ rfl (by simp; omega)
    simpa [cache1Size] using this
  · intro c v hm hd hover
    cases hA : cache1Allows c v with
    | false =>
      exact cache1Set_eq_of_resize_false key evict c v
        (by rw [cache1Resize_reject key evict c v (by omega) hA])
    | true =>
      exact cache1Set_eq_of_resize_false key evict c v
        (by rw [cache1Resize_dontInsert key evict c v (by omega) hA
          (by omega) hd])

/-- Witness for claim C5: capacity 2, three distinct inserted entities,
head-of-list eviction choice. -/
theorem claim5_witness :
    (cache1Size (cache1SetMany (fun x => x) headKey
      (⟨none, false, 2, []⟩ : Cache1 ULID) ["a", "b", "c"]) : Int) ≤ 2 :=
  (claim5_size_bound (fun x => x) headKey headKey_valid 2 (by decide) false
    ["a", "b", "c"]).1

/-- Claim C6: in every reachable state of the parent-scoped cache, Size
equals the number of entries reachable across all parent groups; DelGroup on
a present parent removes exactly one group and decreases Size by exactly
that groups prior member count; Del on an absent key leaves Size
unchanged. -/
theorem claim6_size_correct {T : Type} (key : T → ULID) (c : Cache2 T)
    (h : Cache2Reachable key c) :
    cache2Size c = (entryCount c.cache : Int) ∧
    (∀ (parent : ULID) (g : List (ULID × T)), alookup c.cache parent = some g →
      cache2GroupsCount (cache2DelGroup c parent) + 1 = cache2GroupsCount c ∧
      cache2Size (cache2DelGroup c parent) = cache2Size c - (g.length : Int)) ∧
    (∀ parent i : ULID, cache2Get c parent i = none →
      cache2Size (cache2Del c parent i) = cache2Size c) := by
  obtain ⟨htot, hnk, hgr⟩ := reachable_wf key c h
  refine ⟨htot, ?_, ?_⟩
  · intro parent g hg
    have hmem : parent ∈ keys c.cache :=
      (alookup_isSome_iff _ _).mp (by simp [hg])
    constructor
    · unfold cache2GroupsCount cache2DelGroup
      rw [hg]
      exact length_aerase_nodup c.cache parent hnk hmem
    · unfold cache2Size cache2DelGroup
      rw [hg]
  · intro parent i hget
    unfold cache2Size cache2Del cache2DelEntry
    unfold cache2Get at hget
    cases e1 : alookup c.cache parent with
    | none => rfl
    | some x =>
      rw [e1] at hget
      dsimp only at hget ⊢
      rw [hget]
      simp

/-- Witness for claim C6 at a concrete reachable state (one Set into a fresh
unbounded cache). -/
theorem claim6_witness :
    cache2Size (cache2Set (fun x => x) headKey headKey
      (⟨none, -1, 0, 0, 0, false, []⟩ : Cache2 ULID) "p" "a") =
      (entryCount (cache2Set (fun x => x) headKey headKey
        (⟨none, -1, 0, 0, 0, false, []⟩ : Cache2 ULID) "p" "a").cache : Int) :=
  (claim6_size_correct (fun x => x) _
    (Cache2Reachable.set headKey headKey "p" "a" _
      (Cache2Reachable.init none (-1) 0 0 false))).1

/-- Claim C7: a UserUpdate patch carrying only a badges value rewrites only
the badges region of the combined user bitfield, leaving the flag bits and
the online bit (and the other entity fields) untouched; and a patch carrying
only an online boolean sets or clears exactly the online bit, leaving the
badges and flag regions untouched. -/
theorem claim7_bitfield_isolation :
    (∀ (u : OptimizedUser) (y : Nat),
      ouOnlineBit (applyUserUpdateData ⟨some y, none, none, none⟩ u).flags =
        ouOnlineBit u.flags ∧
      ouFlagsPart (applyUserUpdateData ⟨some y, none, none, none⟩ u).flags =
        ouFlagsPart u.flags ∧
      ouBadgesPart (applyUserUpdateData ⟨some y, none, none, none⟩ u).flags =
        y % 4294967296 ∧
      (applyUserUpdateData ⟨some y, none, none, none⟩ u).username =
        u.username) ∧
    (∀ (u : OptimizedUser) (b : Bool),
      ouBadgesPart (applyUserUpdateData ⟨none, none, some b, none⟩ u).flags =
        ouBadgesPart u.flags ∧
      ouFlagsPart (applyUserUpdateData ⟨none, none, some b, none⟩ u).flags =
        ouFlagsPart u.flags ∧
      ouOnlineBit (applyUserUpdateData ⟨none, none, some b, none⟩ u).flags =
        (if b then 1 else 0)) := by
  constructor
  · intro u y
    refine ⟨?_, ?_, ?_, rfl⟩ <;>
      · simp only [applyUserUpdateData, updateBadges, ouOnlineBit, ouFlagsPart,
          ouBadgesPart]
        omega
  · intro u b
    cases b <;> refine ⟨?_, ?_, ?_⟩ <;>
      · simp only [applyUserUpdateData, setOnline, ouOnlineBit, ouFlagsPart,
          ouBadgesPart, Bool.false_eq_true, if_false, if_true]
        omega

/-- Claim C8: during an emission over callbacks A, B, C (ids 1, 2, 3) in
which B deletes its own subscription while being invoked, the emission
completes with A and C each invoked exactly once (for every possible map
iteration order), and deleting an already-removed subscription is a
no-op. -/
theorem claim8_self_removal :
    (∀ order ∈ ([[1, 2, 3], [1, 3, 2], [2, 1, 3], [2, 3, 1], [3, 1, 2],
        [3, 2, 1]] : List (List Nat)),
      (emitWithDeletes selfDeleteEffects order [1, 2, 3] []).2.count 1 = 1 ∧
      (emitWithDeletes selfDeleteEffects order [1, 2, 3] []).2.count 2 = 1 ∧
      (emitWithDeletes selfDeleteEffects order [1, 2, 3] []).2.count 3 = 1 ∧
      (emitWithDeletes selfDeleteEffects order [1, 2, 3] []).1 = [1, 3]) ∧
    (∀ (regs : List Nat) (i : Nat), i ∉ regs → eraseReg regs i = regs) := by
  constructor
  · decide
  · intro regs i hi
    induction regs with
    | nil => rfl
    | cons j rest ih =>
      simp only [List.mem_cons] at hi
      push_neg at hi
      rw [show eraseReg (j :: rest) i = j :: eraseReg rest i from by
        simp only [eraseReg]
        rw [if_neg (fun h => hi.1 h.symm)]]
      rw [ih hi.2]

/-- Witness for claim C8 at the concrete iteration order B, A, C and a
concrete already-removed subscription. -/
theorem claim8_witness :
    ((emitWithDeletes selfDeleteEffects [2, 1, 3] [1, 2, 3] []).2.count 1 = 1 ∧
     (emitWithDeletes selfDeleteEffects [2, 1, 3] [1, 2, 3] []).2.count 2 = 1 ∧
     (emitWithDeletes selfDeleteEffects [2, 1, 3] [1, 2, 3] []).2.count 3 = 1 ∧
     (emitWithDeletes selfDeleteEffects [2, 1, 3] [1, 2, 3] []).1 = [1, 3]) ∧
    eraseReg [1, 3] 2 = [1, 3] :=
  ⟨claim8_self_removal.1 [2, 1, 3] (by decide),
   claim8_self_removal.2 [1, 3] 2 (by decide)⟩

/-- Claim C9: for both cache shapes, PartiallyUpdate on an absent key leaves
the cache entirely unchanged, creates no entry, and never invokes the
supplied mutator (the invocation count is zero). -/
theorem claim9_absent_noop :
    (∀ (T : Type) (c : Cache1 T) (i : ULID) (f : T → T),
      cache1Get c i = none → cache1PartiallyUpdateN c i f = (c, 0)) ∧
    (∀ (T : Type) (c : Cache2 T) (parent i : ULID) (f : T → T),
      cache2Get c parent i = none → cache2PartiallyUpdateN c parent i f = (c, 0)) := by
  constructor
  · intro T c i f h
    unfold cache1Get at h
    unfold cache1PartiallyUpdateN
    rw [h]
  · intro T c parent i f h
    unfold cache2Get at h
    unfold cache2PartiallyUpdateN
    cases e1 : alookup c.cache parent with
    | none => rfl
    | some x =>
      rw [e1] at h
      dsimp only at h
      dsimp only
      rw [h]

/-- Witness for claim C9 at concrete caches holding one entry each, probed
at an absent key. -/
theorem claim9_witness :
    cache1PartiallyUpdateN (⟨none, false, -1, [("a", 5)]⟩ : Cache1 Nat) "b"
        (fun n => n + 1) =
      ((⟨none, false, -1, [("a", 5)]⟩ : Cache1 Nat), 0) ∧
    cache2PartiallyUpdateN
        (⟨none, -1, 0, 0, 1, false, [("p", [("a", 5)])]⟩ : Cache2 Nat) "p" "b"
        (fun n => n + 1) =
      ((⟨none, -1, 0, 0, 1, false, [("p", [("a", 5)])]⟩ : Cache2 Nat), 0) :=
  ⟨claim9_absent_noop.1 Nat _ "b" _ (by decide),
   claim9_absent_noop.2 Nat _ "p" "b" _ (by decide)⟩

/-- Claim C10: a frame that parses as JSON but carries no string value under
its type key makes `Socket.process` panic on the unchecked type assertion
(killing the read loop) rather than dropping the frame or emitting an error,
and a frame whose top-level JSON parse fails makes `process` return silently
with no emission on the error channel. -/
theorem claim10_type_assertion :
    processOutcome FrameShape.noStringType = ProcessOutcome.panicked ∧
    loopSurvives ProcessOutcome.panicked = false ∧
    processOutcome FrameShape.malformed = ProcessOutcome.silentReturn :=
  ⟨rfl, rfl, rfl⟩

end Regolt
